import Mathlib

/-!
Verification of the placeholder-interpolation engine of
`balena-variable-substitution` (`src/lib/index.ts`).

The engine scans a string with the JavaScript regular expression

  `/(\$+)?\$(?:(\w+)|{(\w+)(?:([:\-\?]+)([^}]+))?})/g`

and replaces every match according to escaping / operator rules.  We embed
the scanner as an explicit recursive function over `List Char` that is
extensionally equal to the behaviour of the regex under JavaScript's
leftmost-match, greedy-with-backtracking semantics:

* a match always begins at the start of a maximal run of `$` characters
  (the alternatives after the dollars begin with a word character or `{`,
  never `$`, so the backtracking over `(\$+)?\$` always settles on
  consuming the entire run);
* the capture `(\$+)` is present (the match is *escaped*) iff the run has
  length at least 2;
* for the braced alternative, `(\w+)` takes the maximal word run (shrinking
  it can never help, since a word character matches neither `[:\-\?]`
  nor `}`), the operator class `([:\-\?]+)` takes the maximal run of
  `:`/`-`/`?` characters shortened only as far as needed to leave at least
  one character of `([^}]+)` before the first `}`, and `([^}]+)` extends
  exactly to that first `}`.

Since `([:\-\?]+)` and `([^}]+)` sit inside a single optional group and
`([^}]+)` requires at least one character, a match can never have a kind
with a null fallback: the `fallback not specified` SyntaxError branch of
the source is unreachable and an `Operator` below therefore always carries
a fallback.
-/

namespace VarSub

/-- `\w` of the source regex: ASCII letters, digits and underscore. -/
def isWordChar (c : Char) : Bool :=
  c.isAlpha || c.isDigit || c = '_'

/-- The operator character class `[:\-\?]` of the source regex. -/
def isOpChar (c : Char) : Bool :=
  c = ':' || c = '-' || c = '?'

/-- Runtime values that may be stored in an environment.  The source types
`Environment` as string-valued but the tests exercise `null`, `undefined`
and numbers, and the engine normalizes them (`index.ts` lines 183-184). -/
inductive JsVal where
  | str (s : List Char)
  | num (n : Int)
  | nullv
  | undef
deriving DecidableEq, Repr

/-- JavaScript truthiness of the environment values we model. -/
def jsTruthy : JsVal → Bool
  | .str s => !s.isEmpty
  | .num n => n != 0
  | .nullv => false
  | .undef => false

/-- JavaScript `.toString()` of the environment values we model. -/
def jsToString : JsVal → List Char
  | .str s => s
  | .num n => (toString n).data
  | .nullv => "null".data
  | .undef => "undefined".data

/-- An environment: keyed mapping from placeholder names to values. -/
abbrev Environment := List (List Char × JsVal)

/-- `env[name]`: `none` when no entry with that key exists. -/
def lookupEnv : Environment → List Char → Option JsVal
  | [], _ => none
  | (k, v) :: rest, n => if k = n then some v else lookupEnv rest n

/-- `env[name] == null ? undefined : env[name]` (`index.ts` line 183):
normalizes a missing entry and stored `null`/`undefined` to `none`. -/
def rawValue (env : Environment) (name : List Char) : Option JsVal :=
  match lookupEnv env name with
  | none => none
  | some .nullv => none
  | some .undef => none
  | some v => some v

/-- `(rawValue || '').toString()` (`index.ts` line 184): a falsy raw value
(absent, or e.g. the number `0` or the empty string) yields `''`; a truthy
one is stringified. -/
def resolvedValue (env : Environment) (name : List Char) : List Char :=
  match rawValue env name with
  | none => []
  | some v => if jsTruthy v then jsToString v else []

/-- `Operator` of the source: the operator token and its fallback text. -/
structure Operator where
  kind : List Char
  fallback : List Char
deriving DecidableEq, Repr

/-- The data the scanner extracts from one regex match. -/
structure MatchData where
  /-- The full matched placeholder text. -/
  placeholder : List Char
  /-- The placeholder name (`name1 || name2` of the source). -/
  name : List Char
  /-- The operator, for braced matches that declare one. -/
  operator : Option Operator
  /-- `escaped != null`: at least one extra leading `$`. -/
  escaped : Bool
deriving DecidableEq, Repr

/-- A scanned string: literal characters interleaved with matches. -/
inductive Seg where
  | lit (c : Char)
  | mtch (m : MatchData)
deriving DecidableEq, Repr

/-- Split a character list at its first `}`: returns the (brace-free) part
before it and the part after it. -/
def splitAtBrace : List Char → Option (List Char × List Char)
  | [] => none
  | c :: cs =>
    if c = '}' then some ([], cs)
    else
      match splitAtBrace cs with
      | some (a, b) => some (c :: a, b)
      | none => none

/-- Parse `(?:([:\-\?]+)([^}]+))?}` at the position just after the braced
name.  Returns the optional operator, the consumed text (operator, fallback
and closing brace), and the remainder after the closing brace.

The operator run is greedy but backtracks just enough to leave at least one
fallback character before the first `}`; `([^}]+)` then extends exactly to
that first `}`. -/
def parseOpPart (r3 : List Char) : Option (Option Operator × List Char × List Char) :=
  match r3 with
  | [] => none
  | c :: rest =>
    if c = '}' then some (none, ['}'], rest)
    else
      let m := (r3.takeWhile isOpChar).length
      if m = 0 then none
      else
        match splitAtBrace r3 with
        | none => none
        | some (before, rem) =>
          if before.length < 2 then none
          else
            let j := min m (before.length - 1)
            some (some ⟨before.take j, before.drop j⟩, before ++ ['}'], rem)

/-- Try to complete a match after the maximal dollar run `ds` (nonempty),
with `r` the text after the run: the alternatives `(\w+)` and
`{(\w+)(?:([:\-\?]+)([^}]+))?}`.  Returns the match and the remainder. -/
def tryRest (ds r : List Char) : Option (MatchData × List Char) :=
  match r with
  | [] => none
  | c :: cs =>
    if isWordChar c then
      some (⟨ds ++ r.takeWhile isWordChar, r.takeWhile isWordChar,
             none, decide (2 ≤ ds.length)⟩, r.dropWhile isWordChar)
    else if c = '{' then
      let name := cs.takeWhile isWordChar
      let r3 := cs.dropWhile isWordChar
      if name = [] then none
      else
        match parseOpPart r3 with
        | none => none
        | some (op, consumed, rem) =>
          some (⟨ds ++ '{' :: (name ++ consumed), name,
                 op, decide (2 ≤ ds.length)⟩, rem)
    else none

theorem length_dropWhile_le (p : Char → Bool) (l : List Char) :
    (l.dropWhile p).length ≤ l.length := by
  induction l with
  | nil => simp [List.dropWhile]
  | cons c cs ih =>
    by_cases h : p c
    · simp only [List.dropWhile, h, List.length_cons]
      omega
    · simp [List.dropWhile, h]

theorem splitAtBrace_lengths {cs a b : List Char}
    (h : splitAtBrace cs = some (a, b)) : b.length < cs.length := by
  induction cs generalizing a b with
  | nil => simp [splitAtBrace] at h
  | cons c rest ih =>
    rw [splitAtBrace] at h
    by_cases hc : c = '}'
    · rw [if_pos hc] at h
      simp only [Option.some.injEq, Prod.mk.injEq] at h
      obtain ⟨h1, h2⟩ := h
      subst h2
      simp only [List.length_cons]
      omega
    · rw [if_neg hc] at h
      cases hs : splitAtBrace rest with
      | none => rw [hs] at h; simp at h
      | some p =>
        obtain ⟨a2, b2⟩ := p
        rw [hs] at h
        simp only [Option.some.injEq, Prod.mk.injEq] at h
        obtain ⟨h1, h2⟩ := h
        subst h2
        have := ih hs
        simp only [List.length_cons]
        omega

theorem parseOpPart_length {r3 : List Char} {op : Option Operator}
    {consumed rem : List Char}
    (h : parseOpPart r3 = some (op, consumed, rem)) : rem.length < r3.length := by
  match r3 with
  | [] => simp [parseOpPart] at h
  | c :: rest =>
    rw [parseOpPart] at h
    by_cases hc : c = '}'
    · rw [if_pos hc] at h
      simp only [Option.some.injEq, Prod.mk.injEq] at h
      obtain ⟨-, -, h3⟩ := h
      subst h3
      simp only [List.length_cons]
      omega
    · rw [if_neg hc] at h
      by_cases hm : ((c :: rest).takeWhile isOpChar).length = 0
      · rw [if_pos hm] at h; simp at h
      · rw [if_neg hm] at h
        cases hs : splitAtBrace (c :: rest) with
        | none => rw [hs] at h; simp at h
        | some p =>
          obtain ⟨before, rem2⟩ := p
          rw [hs] at h
          by_cases hb : before.length < 2
          · simp [hb] at h
          · simp only [hb, if_false] at h
            simp only [Option.some.injEq, Prod.mk.injEq] at h
            obtain ⟨-, -, h3⟩ := h
            subst h3
            exact splitAtBrace_lengths hs

theorem tryRest_length {ds r : List Char} {m : MatchData} {rem : List Char}
    (h : tryRest ds r = some (m, rem)) : rem.length < r.length := by
  match r with
  | [] => simp [tryRest] at h
  | c :: cs =>
    rw [tryRest] at h
    by_cases hw : isWordChar c
    · rw [if_pos hw] at h
      simp only [Option.some.injEq, Prod.mk.injEq] at h
      obtain ⟨-, h2⟩ := h
      subst h2
      simp only [List.dropWhile, hw, List.length_cons]
      have := length_dropWhile_le isWordChar cs
      omega
    · rw [if_neg hw] at h
      by_cases hc : c = '{'
      · rw [if_pos hc] at h
        by_cases hn : cs.takeWhile isWordChar = []
        · rw [if_pos hn] at h; simp at h
        · rw [if_neg hn] at h
          cases hp : parseOpPart (cs.dropWhile isWordChar) with
          | none => rw [hp] at h; simp at h
          | some p =>
            obtain ⟨op, consumed, rem2⟩ := p
            rw [hp] at h
            simp only [Option.some.injEq, Prod.mk.injEq] at h
            obtain ⟨-, h2⟩ := h
            subst h2
            have h1 := parseOpPart_length hp
            have h2 := length_dropWhile_le isWordChar cs
            simp only [List.length_cons]
            omega
      · rw [if_neg hc] at h; simp at h

/-- The scanner loop, with explicit fuel so that it is structurally
recursive (and therefore computes inside the kernel).  One unit of fuel is
spent per character position tried, which over-approximates the work:
`scanF cs.length cs` never exhausts the fuel. -/
def scanF : Nat → List Char → List Seg
  | 0, _ => []
  | _ + 1, [] => []
  | fuel + 1, c :: rest =>
    if c = '$' then
      match tryRest ((c :: rest).takeWhile (fun x => x = '$'))
                    ((c :: rest).dropWhile (fun x => x = '$')) with
      | some (m, rem) => Seg.mtch m :: scanF fuel rem
      | none => Seg.lit c :: scanF fuel rest
    else Seg.lit c :: scanF fuel rest

/-- The scanner: the leftmost, non-overlapping matches of the source regex
together with the literal characters between them. -/
def scan (cs : List Char) : List Seg := scanF cs.length cs

/-- The fuel is irrelevant as long as it covers the input length. -/
theorem scanF_fuel :
    ∀ {f g : Nat} {cs : List Char}, cs.length ≤ f → cs.length ≤ g →
      scanF f cs = scanF g cs := by
  intro f
  induction f with
  | zero =>
    intro f2 cs h1 h2
    match cs with
    | [] =>
      match f2 with
      | 0 => rfl
      | _ + 1 => rfl
    | c :: rest => simp at h1
  | succ f1' ih =>
    intro f2 cs h1 h2
    match cs with
    | [] =>
      match f2 with
      | 0 => rfl
      | _ + 1 => rfl
    | c :: rest =>
      match f2 with
      | 0 => simp at h2
      | f2' + 1 =>
        simp only [List.length_cons] at h1 h2
        rw [scanF, scanF]
        by_cases hc : c = '$'
        · rw [if_pos hc, if_pos hc]
          cases h : tryRest ((c :: rest).takeWhile (fun x => x = '$'))
                           ((c :: rest).dropWhile (fun x => x = '$')) with
          | some p =>
            obtain ⟨m, rem⟩ := p
            have hr := tryRest_length h
            have hd := length_dropWhile_le (fun x => x = '$') (c :: rest)
            simp only [List.length_cons] at hd
            show Seg.mtch m :: scanF f1' rem = Seg.mtch m :: scanF f2' rem
            rw [ih (g := f2') (by omega) (by omega)]
          | none =>
            show Seg.lit c :: scanF f1' rest = Seg.lit c :: scanF f2' rest
            rw [ih (g := f2') (by omega) (by omega)]
        · rw [if_neg hc, if_neg hc, ih (g := f2') (by omega) (by omega)]

/-- The two resolved option flags of `InternalOptions` (the observation
callback is modelled separately, as the event trace returned by
`runSegs`). -/
structure InternalOptions where
  preserveEscaped : Bool := false
  preserveUndefined : Bool := false
deriving DecidableEq, Repr

/-- The default options of the source (`defaultOptions`). -/
def defaultOptions : InternalOptions := {}

/-- The two error kinds of the source.  `valueError` carries the message
given to `new ValueError(...)`; `syntaxError` carries the full message
built by the `SyntaxError` constructor. -/
inductive SubError where
  | valueError (msg : List Char)
  | syntaxError (msg : List Char)
deriving DecidableEq, Repr

/-- ASCII single quote. -/
def squote : Char := Char.ofNat 39

/-- The message of the unknown-operator `SyntaxError`
(`Invalid interpolation syntax; unknown operator: <kind>` with the kind
quoted, `index.ts` lines 6-8 and 247). -/
def unknownOperatorMsg (kind : List Char) : List Char :=
  "Invalid interpolation syntax; unknown operator: ".data
    ++ (squote :: kind ++ [squote])

/-- The record the source passes to `opts.onMatchPlaceholder`
(`index.ts` lines 198-204): the raw (un-stringified) environment value. -/
structure MatchEvent where
  placeholder : List Char
  name : List Char
  value : Option JsVal
  operator : Option Operator
  escaped : Bool
deriving DecidableEq, Repr

/-- Build the callback record for a match. -/
def mkEvent (env : Environment) (m : MatchData) : MatchEvent :=
  ⟨m.placeholder, m.name, rawValue env m.name, m.operator, m.escaped⟩

/-- The substitution decision for one match: the body of the `replace`
callback after the observation event (`index.ts` lines 206-248). -/
def processMatch (env : Environment) (opts : InternalOptions)
    (m : MatchData) : Except SubError (List Char) :=
  let raw := rawValue env m.name
  let value := resolvedValue env m.name
  if m.escaped then
    if opts.preserveEscaped then .ok m.placeholder
    else .ok m.placeholder.tail
  else if raw.isNone && opts.preserveUndefined then .ok m.placeholder
  else
    match m.operator with
    | none => .ok value
    | some op =>
      if op.kind = ['-'] then
        if raw.isNone then .ok op.fallback else .ok value
      else if op.kind = ['?'] then
        if raw.isNone then .error (.valueError op.fallback) else .ok value
      else if op.kind = [':', '-'] then
        if raw.isNone || value.isEmpty then .ok op.fallback else .ok value
      else if op.kind = [':', '?'] then
        if raw.isNone || value.isEmpty then .error (.valueError op.fallback)
        else .ok value
      else .error (.syntaxError (unknownOperatorMsg op.kind))

/-- Process the scanned segments left to right: returns the list of
observation events fired (in order) and either the substituted string or
the first error.  A failing match aborts the call: later matches are
neither observed nor substituted. -/
def runSegs (env : Environment) (opts : InternalOptions) :
    List Seg → List MatchEvent × Except SubError (List Char)
  | [] => ([], .ok [])
  | Seg.lit c :: rest =>
    ((runSegs env opts rest).1, (runSegs env opts rest).2.map (c :: ·))
  | Seg.mtch m :: rest =>
    match processMatch env opts m with
    | .error e => ([mkEvent env m], .error e)
    | .ok out =>
      (mkEvent env m :: (runSegs env opts rest).1,
       (runSegs env opts rest).2.map (out ++ ·))

/-- `interpolateString` of the source, on character lists: scan, then
substitute every match.  Drops the event trace. -/
def interpolateString (str : List Char) (env : Environment)
    (opts : InternalOptions) : Except SubError (List Char) :=
  (runSegs env opts (scan str)).2

/-- The event trace of `interpolateString`: the sequence of records passed
to `opts.onMatchPlaceholder`, in match order. -/
def interpolateStringTrace (str : List Char) (env : Environment)
    (opts : InternalOptions) : List MatchEvent :=
  (runSegs env opts (scan str)).1

/-- The matches of a scanned string, in left-to-right order. -/
def segMatches : List Seg → List MatchData
  | [] => []
  | Seg.lit _ :: rest => segMatches rest
  | Seg.mtch m :: rest => m :: segMatches rest

/-- The text a list of segments stands for. -/
def flattenSegs : List Seg → List Char
  | [] => []
  | Seg.lit c :: rest => c :: flattenSegs rest
  | Seg.mtch m :: rest => m.placeholder ++ flattenSegs rest

/-- The value trees `interpolate0` dispatches over: strings, arrays, plain
objects (`[object Object]`), and the remaining runtime values it returns
unchanged (numbers, booleans, null). -/
inductive Value where
  | str (s : List Char)
  | arr (xs : List Value)
  | obj (fields : List (List Char × Value))
  | num (n : Int)
  | boolv (b : Bool)
  | nullv
deriving Repr

mutual

/-- `interpolate0` of the source (`index.ts` lines 145-165): strings are
substituted, arrays mapped element-wise, plain objects mapped value-wise
(keys untouched, entry order kept), everything else returned as is. -/
def interpolate0 : Value → Environment → InternalOptions → Except SubError Value
  | .str s, env, opts => (interpolateString s env opts).map .str
  | .arr xs, env, opts => (interpolateArr xs env opts).map .arr
  | .obj fs, env, opts => (interpolateObj fs env opts).map .obj
  | .num n, _, _ => .ok (.num n)
  | .boolv b, _, _ => .ok (.boolv b)
  | .nullv, _, _ => .ok .nullv

/-- `obj.map((value) => interpolate0(value, env, opts))`, with a thrown
error propagating out of the whole map. -/
def interpolateArr : List Value → Environment → InternalOptions →
    Except SubError (List Value)
  | [], _, _ => .ok []
  | x :: xs, env, opts =>
    match interpolate0 x env opts with
    | .error e => .error e
    | .ok y =>
      match interpolateArr xs env opts with
      | .error e => .error e
      | .ok ys => .ok (y :: ys)

/-- `Object.entries(obj).map(([key, value]) => [key, interpolate0(...)])`:
the key is kept, the value transformed, entry order preserved. -/
def interpolateObj : List (List Char × Value) → Environment →
    InternalOptions → Except SubError (List (List Char × Value))
  | [], _, _ => .ok []
  | (k, v) :: fs, env, opts =>
    match interpolate0 v env opts with
    | .error e => .error e
    | .ok w =>
      match interpolateObj fs env opts with
      | .error e => .error e
      | .ok ws => .ok ((k, w) :: ws)

end

/-- `makeInterpolator` of the source: binds environment and options. -/
def makeInterpolator (env : Environment) (opts : InternalOptions) :
    Value → Except SubError Value :=
  fun obj => interpolate0 obj env opts

/-- `interpolate` of the source: one-shot entry point. -/
def interpolate (obj : Value) (env : Environment)
    (opts : InternalOptions) : Except SubError Value :=
  makeInterpolator env opts obj

mutual

/-- The names referenced by placeholders in the strings of a value tree. -/
def valueNames : Value → List (List Char)
  | .str s => (segMatches (scan s)).map (·.name)
  | .arr xs => arrNames xs
  | .obj fs => objNames fs
  | .num _ => []
  | .boolv _ => []
  | .nullv => []

/-- Names referenced inside an array. -/
def arrNames : List Value → List (List Char)
  | [] => []
  | x :: xs => valueNames x ++ arrNames xs

/-- Names referenced inside an object. -/
def objNames : List (List Char × Value) → List (List Char)
  | [] => []
  | (_, v) :: fs => valueNames v ++ objNames fs

end

/-- Decidable equality of results, so that concrete runs of the engine can
be checked by `decide`. -/
instance decEqExcept {ε α : Type} [DecidableEq ε] [DecidableEq α] :
    DecidableEq (Except ε α) := fun x y =>
  match x, y with
  | .error a, .error b =>
    if h : a = b then .isTrue (by rw [h])
    else .isFalse (fun he => h (Except.error.inj he))
  | .ok a, .ok b =>
    if h : a = b then .isTrue (by rw [h])
    else .isFalse (fun he => h (Except.ok.inj he))
  | .error _, .ok _ => .isFalse (fun he => Except.noConfusion he)
  | .ok _, .error _ => .isFalse (fun he => Except.noConfusion he)

/-! ### Character-class facts -/

theorem word_ne_dollar {c : Char} (h : isWordChar c = true) : c ≠ '$' := by
  intro he; subst he; exact absurd h (by decide)

theorem word_ne_lbrace {c : Char} (h : isWordChar c = true) : c ≠ '{' := by
  intro he; subst he; exact absurd h (by decide)

theorem word_ne_rbrace {c : Char} (h : isWordChar c = true) : c ≠ '}' := by
  intro he; subst he; exact absurd h (by decide)

theorem op_cases {c : Char} (h : isOpChar c = true) :
    c = ':' ∨ c = '-' ∨ c = '?' := by
  simp only [isOpChar, Bool.or_eq_true, decide_eq_true_eq] at h
  tauto

theorem op_not_word {c : Char} (h : isOpChar c = true) : isWordChar c = false := by
  rcases op_cases h with h | h | h <;> subst h <;> decide

theorem op_ne_rbrace {c : Char} (h : isOpChar c = true) : c ≠ '}' := by
  rcases op_cases h with h | h | h <;> subst h <;> decide

theorem op_ne_dollar {c : Char} (h : isOpChar c = true) : c ≠ '$' := by
  rcases op_cases h with h | h | h <;> subst h <;> decide

/-! ### takeWhile / dropWhile helpers -/

theorem takeWhile_append_all {p : Char → Bool} {xs : List Char} (ys : List Char)
    (h : ∀ x ∈ xs, p x = true) :
    (xs ++ ys).takeWhile p = xs ++ ys.takeWhile p := by
  induction xs with
  | nil => simp
  | cons a l ih =>
    have ha : p a = true := h a (List.mem_cons_self a l)
    simp only [List.cons_append, List.takeWhile, ha, List.append_eq]
    rw [ih (fun x hx => h x (List.mem_cons_of_mem a hx))]

theorem dropWhile_append_all {p : Char → Bool} {xs : List Char} (ys : List Char)
    (h : ∀ x ∈ xs, p x = true) :
    (xs ++ ys).dropWhile p = ys.dropWhile p := by
  induction xs with
  | nil => simp
  | cons a l ih =>
    have ha : p a = true := h a (List.mem_cons_self a l)
    simp only [List.cons_append, List.dropWhile, ha]
    exact ih (fun x hx => h x (List.mem_cons_of_mem a hx))

theorem takeWhile_cons_false {p : Char → Bool} {a : Char} (l : List Char)
    (h : p a = false) : (a :: l).takeWhile p = [] := by
  simp only [List.takeWhile, h]

theorem dropWhile_cons_false {p : Char → Bool} {a : Char} (l : List Char)
    (h : p a = false) : (a :: l).dropWhile p = a :: l := by
  simp only [List.dropWhile, h]

theorem takeWhile_all {p : Char → Bool} {xs : List Char}
    (h : ∀ x ∈ xs, p x = true) : xs.takeWhile p = xs := by
  have := takeWhile_append_all (p := p) [] h
  simpa using this

theorem dropWhile_all {p : Char → Bool} {xs : List Char}
    (h : ∀ x ∈ xs, p x = true) : xs.dropWhile p = [] := by
  have := dropWhile_append_all (p := p) [] h
  simpa using this

theorem replicate_dollar_all (k : Nat) :
    ∀ x ∈ List.replicate k '$', decide (x = '$') = true := by
  intro x hx
  simp [List.eq_of_mem_replicate hx]

/-! ### Scanner step lemmas -/

theorem scan_cons_some {cs : List Char} {m : MatchData} {rem : List Char}
    (h : tryRest (('$'::cs).takeWhile (fun x => x = '$'))
                 (('$'::cs).dropWhile (fun x => x = '$')) = some (m, rem)) :
    scan ('$' :: cs) = Seg.mtch m :: scan rem := by
  have hr := tryRest_length h
  have hd := length_dropWhile_le (fun x => x = '$') ('$' :: cs)
  simp only [List.length_cons] at hd
  simp only [scan, List.length_cons]
  rw [scanF, if_pos rfl, h]
  show Seg.mtch m :: scanF cs.length rem = Seg.mtch m :: scanF rem.length rem
  rw [scanF_fuel (g := rem.length) (by omega) (Nat.le_refl _)]

theorem scan_cons_none {cs : List Char}
    (h : tryRest (('$'::cs).takeWhile (fun x => x = '$'))
                 (('$'::cs).dropWhile (fun x => x = '$')) = none) :
    scan ('$' :: cs) = Seg.lit '$' :: scan cs := by
  simp only [scan, List.length_cons]
  rw [scanF, if_pos rfl, h]

theorem scan_cons_lit {c : Char} {cs : List Char} (h : c ≠ '$') :
    scan (c :: cs) = Seg.lit c :: scan cs := by
  simp only [scan, List.length_cons]
  rw [scanF, if_neg h]

theorem scan_no_dollar {cs : List Char} (h : ∀ c ∈ cs, c ≠ '$') :
    scan cs = cs.map Seg.lit := by
  induction cs with
  | nil => rw [scan]; rfl
  | cons c rest ih =>
    rw [scan_cons_lit (h c (List.mem_cons_self c rest)), List.map_cons,
        ih (fun x hx => h x (List.mem_cons_of_mem c hx))]

/-! ### splitAtBrace and parseOpPart computations -/

theorem splitAtBrace_append {a : List Char} (b : List Char)
    (h : ∀ c ∈ a, c ≠ '}') :
    splitAtBrace (a ++ '}' :: b) = some (a, b) := by
  induction a with
  | nil => simp [splitAtBrace]
  | cons x l ih =>
    have hx := h x (List.mem_cons_self x l)
    rw [List.cons_append, splitAtBrace, if_neg hx,
        ih (fun c hc => h c (List.mem_cons_of_mem x hc))]

theorem parseOpPart_plain (rest : List Char) :
    parseOpPart ('}' :: rest) = some (none, ['}'], rest) := by
  rw [parseOpPart]
  simp

theorem parseOpPart_op {ks fb : List Char} (hks : ks ≠ [])
    (hop : ∀ c ∈ ks, isOpChar c = true) (hfb : fb ≠ [])
    (hf : ∀ c ∈ fb.head?, isOpChar c = false) (hnb : ∀ c ∈ fb, c ≠ '}') :
    parseOpPart (ks ++ fb ++ ['}']) =
      some (some ⟨ks, fb⟩, ks ++ fb ++ ['}'], []) := by
  obtain ⟨k0, ks', rfl⟩ : ∃ k0 ks', ks = k0 :: ks' := by
    cases ks with
    | nil => exact absurd rfl hks
    | cons a l => exact ⟨a, l, rfl⟩
  obtain ⟨f0, fb', rfl⟩ : ∃ f0 fb', fb = f0 :: fb' := by
    cases fb with
    | nil => exact absurd rfl hfb
    | cons a l => exact ⟨a, l, rfl⟩
  have hk0 : isOpChar k0 = true := hop k0 (List.mem_cons_self k0 ks')
  have hf0 : isOpChar f0 = false := hf f0 (by simp)
  have htk : ((k0 :: ks') ++ (f0 :: fb') ++ ['}']).takeWhile isOpChar
      = k0 :: ks' := by
    rw [List.append_assoc, takeWhile_append_all _ hop,
        show (f0 :: fb') ++ ['}'] = f0 :: (fb' ++ ['}']) from rfl,
        takeWhile_cons_false _ hf0, List.append_nil]
  have hsplit : splitAtBrace ((k0 :: ks') ++ (f0 :: fb') ++ ['}'])
      = some ((k0 :: ks') ++ (f0 :: fb'), []) := by
    have : (k0 :: ks') ++ (f0 :: fb') ++ ['}']
        = ((k0 :: ks') ++ (f0 :: fb')) ++ '}' :: [] := by simp
    rw [this]
    refine splitAtBrace_append [] ?_
    intro c hc
    rcases List.mem_append.mp hc with hc | hc
    · exact op_ne_rbrace (hop c hc)
    · exact hnb c hc
  have hcons : (k0 :: ks') ++ (f0 :: fb') ++ ['}']
      = k0 :: (ks' ++ (f0 :: fb') ++ ['}']) := by simp
  have hlen : (((k0 :: ks') ++ (f0 :: fb')).length < 2) = False := by
    simp only [List.length_append, List.length_cons, eq_iff_iff, iff_false]
    omega
  have hm0 : ((k0 :: ks').length = 0) = False := by simp
  have hmin : min (k0 :: ks').length (((k0 :: ks') ++ (f0 :: fb')).length - 1)
      = (k0 :: ks').length := by
    apply Nat.min_eq_left
    simp only [List.length_append, List.length_cons]
    omega
  rw [hcons, parseOpPart, if_neg (op_ne_rbrace hk0), ← hcons, htk, hsplit]
  simp only [hm0, if_false, hlen, hmin, List.take_left, List.drop_left]

/-! ### tryRest computations -/

theorem tryRest_word {ds name : List Char} (hn : name ≠ [])
    (hw : ∀ c ∈ name, isWordChar c = true) :
    tryRest ds name =
      some (⟨ds ++ name, name, none, decide (2 ≤ ds.length)⟩, []) := by
  obtain ⟨c0, name', rfl⟩ : ∃ c0 name', name = c0 :: name' := by
    cases name with
    | nil => exact absurd rfl hn
    | cons a l => exact ⟨a, l, rfl⟩
  have hw0 : isWordChar c0 = true := hw c0 (List.mem_cons_self c0 name')
  rw [tryRest, if_pos hw0, takeWhile_all hw, dropWhile_all hw]

theorem tryRest_brace {ds name r3 : List Char} {op : Option Operator}
    {consumed rem : List Char} (hn : name ≠ [])
    (hw : ∀ c ∈ name, isWordChar c = true)
    (h3 : ∀ c ∈ r3.head?, isWordChar c = false)
    (hp : parseOpPart r3 = some (op, consumed, rem)) :
    tryRest ds ('{' :: (name ++ r3)) =
      some (⟨ds ++ '{' :: (name ++ consumed), name, op,
             decide (2 ≤ ds.length)⟩, rem) := by
  have hnw : isWordChar '{' = false := by decide
  have htk : (name ++ r3).takeWhile isWordChar = name := by
    rw [takeWhile_append_all _ hw]
    cases r3 with
    | nil => simp
    | cons a l =>
      rw [takeWhile_cons_false _ (h3 a (by simp)), List.append_nil]
  have hdr : (name ++ r3).dropWhile isWordChar = r3 := by
    rw [dropWhile_append_all _ hw]
    cases r3 with
    | nil => simp
    | cons a l => exact dropWhile_cons_false _ (h3 a (by simp))
  rw [tryRest, if_neg (by simp [hnw]), if_pos rfl, htk, hdr, if_neg hn, hp]

theorem tryRest_brace_none {ds name r3 : List Char} (hn : name ≠ [])
    (hw : ∀ c ∈ name, isWordChar c = true)
    (h3 : ∀ c ∈ r3.head?, isWordChar c = false)
    (hp : parseOpPart r3 = none) :
    tryRest ds ('{' :: (name ++ r3)) = none := by
  have hnw : isWordChar '{' = false := by decide
  have htk : (name ++ r3).takeWhile isWordChar = name := by
    rw [takeWhile_append_all _ hw]
    cases r3 with
    | nil => simp
    | cons a l =>
      rw [takeWhile_cons_false _ (h3 a (by simp)), List.append_nil]
  have hdr : (name ++ r3).dropWhile isWordChar = r3 := by
    rw [dropWhile_append_all _ hw]
    cases r3 with
    | nil => simp
    | cons a l => exact dropWhile_cons_false _ (h3 a (by simp))
  rw [tryRest, if_neg (by simp [hnw]), if_pos rfl, htk, hdr, if_neg hn, hp]

/-- `splitAtBrace` decomposes its input. -/
theorem splitAtBrace_eq {cs a b : List Char}
    (h : splitAtBrace cs = some (a, b)) : cs = a ++ '}' :: b := by
  induction cs generalizing a b with
  | nil => simp [splitAtBrace] at h
  | cons c rest ih =>
    rw [splitAtBrace] at h
    by_cases hc : c = '}'
    · rw [if_pos hc] at h
      simp only [Option.some.injEq, Prod.mk.injEq] at h
      obtain ⟨h1, h2⟩ := h
      subst h1; subst h2; subst hc
      rfl
    · rw [if_neg hc] at h
      cases hs : splitAtBrace rest with
      | none => rw [hs] at h; simp at h
      | some p =>
        obtain ⟨a2, b2⟩ := p
        rw [hs] at h
        simp only [Option.some.injEq, Prod.mk.injEq] at h
        obtain ⟨h1, h2⟩ := h
        subst h1; subst h2
        rw [List.cons_append, ← ih hs]

/-- The consumed text of `parseOpPart` together with the remainder
reassembles the input. -/
theorem consumed_parseOpPart {r3 : List Char} {op : Option Operator}
    {consumed rem : List Char}
    (h : parseOpPart r3 = some (op, consumed, rem)) :
    consumed ++ rem = r3 := by
  match r3 with
  | [] => simp [parseOpPart] at h
  | c :: rest =>
    rw [parseOpPart] at h
    by_cases hc : c = '}'
    · rw [if_pos hc] at h
      simp only [Option.some.injEq, Prod.mk.injEq] at h
      obtain ⟨-, h2, h3⟩ := h
      subst h2; subst h3; subst hc
      rfl
    · rw [if_neg hc] at h
      by_cases hm : ((c :: rest).takeWhile isOpChar).length = 0
      · rw [if_pos hm] at h; simp at h
      · rw [if_neg hm] at h
        cases hs : splitAtBrace (c :: rest) with
        | none => rw [hs] at h; simp at h
        | some p =>
          obtain ⟨before, rem2⟩ := p
          rw [hs] at h
          by_cases hb : before.length < 2
          · simp [hb] at h
          · simp only [hb, if_false] at h
            simp only [Option.some.injEq, Prod.mk.injEq] at h
            obtain ⟨-, h2, h3⟩ := h
            subst h2; subst h3
            have := splitAtBrace_eq hs
            rw [List.append_assoc, List.singleton_append, ← this]

/-- The matched placeholder of `tryRest` together with the remainder
reassembles the dollar run and the rest of the input. -/
theorem placeholder_tryRest {ds r : List Char} {m : MatchData}
    {rem : List Char} (h : tryRest ds r = some (m, rem)) :
    m.placeholder ++ rem = ds ++ r := by
  match r with
  | [] => simp [tryRest] at h
  | c :: cs =>
    rw [tryRest] at h
    by_cases hw : isWordChar c
    · rw [if_pos hw] at h
      simp only [Option.some.injEq, Prod.mk.injEq] at h
      obtain ⟨h1, h2⟩ := h
      rw [← h1, ← h2]
      simp only [List.append_assoc, List.takeWhile_append_dropWhile]
    · rw [if_neg hw] at h
      by_cases hc : c = '{'
      · rw [if_pos hc] at h
        by_cases hn : cs.takeWhile isWordChar = []
        · rw [if_pos hn] at h; simp at h
        · rw [if_neg hn] at h
          cases hp : parseOpPart (cs.dropWhile isWordChar) with
          | none => rw [hp] at h; simp at h
          | some p =>
            obtain ⟨op, consumed, rem2⟩ := p
            rw [hp] at h
            simp only [Option.some.injEq, Prod.mk.injEq] at h
            obtain ⟨h1, h2⟩ := h
            rw [← h1, ← h2, ← hc]
            simp only [List.cons_append, List.append_assoc]
            rw [consumed_parseOpPart hp, List.takeWhile_append_dropWhile]
      · rw [if_neg hc] at h; simp at h

/-- `tryRest` succeeds or fails independently of the dollar run. -/
theorem tryRest_none_any {ds ds' r : List Char} (h : tryRest ds r = none) :
    tryRest ds' r = none := by
  match r with
  | [] => rw [tryRest]
  | c :: cs =>
    rw [tryRest] at h ⊢
    by_cases hw : isWordChar c
    · rw [if_pos hw] at h; cases h
    · rw [if_neg hw] at h ⊢
      by_cases hc : c = '{'
      · rw [if_pos hc] at h ⊢
        by_cases hn : cs.takeWhile isWordChar = []
        · rw [if_pos hn] at h ⊢
        · rw [if_neg hn] at h ⊢
          cases hp : parseOpPart (cs.dropWhile isWordChar) with
          | none => rfl
          | some p =>
            obtain ⟨op, consumed, rem⟩ := p
            rw [hp] at h
            simp at h
      · rw [if_neg hc] at h ⊢

/-! ### Scanning a maximal dollar run -/

theorem run_take (k : Nat) {tail : List Char}
    (h0 : tail.takeWhile (fun x => x = '$') = []) :
    (List.replicate k '$' ++ tail).takeWhile (fun x => x = '$')
      = List.replicate k '$' := by
  rw [takeWhile_append_all _ (replicate_dollar_all k), h0, List.append_nil]

theorem run_drop (k : Nat) {tail : List Char}
    (h1 : tail.dropWhile (fun x => x = '$') = tail) :
    (List.replicate k '$' ++ tail).dropWhile (fun x => x = '$') = tail := by
  rw [dropWhile_append_all _ (replicate_dollar_all k), h1]

theorem scan_nil : scan [] = [] := rfl

theorem scan_run_some {k : Nat} {tail : List Char} {m : MatchData}
    {rem : List Char} (hk : 1 ≤ k)
    (h0 : tail.takeWhile (fun x => x = '$') = [])
    (h1 : tail.dropWhile (fun x => x = '$') = tail)
    (h : tryRest (List.replicate k '$') tail = some (m, rem)) :
    scan (List.replicate k '$' ++ tail) = Seg.mtch m :: scan rem := by
  obtain ⟨k', rfl⟩ : ∃ k', k = k' + 1 := ⟨k - 1, by omega⟩
  have hstep : List.replicate (k' + 1) '$' ++ tail
      = '$' :: (List.replicate k' '$' ++ tail) := by
    rw [List.replicate_succ, List.cons_append]
  rw [hstep]
  apply scan_cons_some
  rw [← hstep, run_take _ h0, run_drop _ h1]
  exact h

theorem scan_run_none {k : Nat} {tail : List Char}
    (h0 : tail.takeWhile (fun x => x = '$') = [])
    (h1 : tail.dropWhile (fun x => x = '$') = tail)
    (h : tryRest [] tail = none) :
    scan (List.replicate k '$' ++ tail) =
      (List.replicate k '$').map Seg.lit ++ scan tail := by
  induction k with
  | zero => simp
  | succ k' ih =>
    have hstep : List.replicate (k' + 1) '$' ++ tail
        = '$' :: (List.replicate k' '$' ++ tail) := by
      rw [List.replicate_succ, List.cons_append]
    have hno : tryRest
        (('$' :: (List.replicate k' '$' ++ tail)).takeWhile (fun x => x = '$'))
        (('$' :: (List.replicate k' '$' ++ tail)).dropWhile (fun x => x = '$'))
          = none := by
      rw [← hstep, run_take _ h0, run_drop _ h1]
      exact tryRest_none_any h
    rw [hstep, scan_cons_none hno, ih]
    simp [List.replicate_succ]

/-- Scanning `k` dollars followed (only) by a word name: one unbraced
match, escaped iff `k ≥ 2`. -/
theorem scan_run_name {k : Nat} {name : List Char} (hk : 1 ≤ k)
    (hn : name ≠ []) (hw : ∀ c ∈ name, isWordChar c = true) :
    scan (List.replicate k '$' ++ name) =
      [Seg.mtch ⟨List.replicate k '$' ++ name, name, none, decide (2 ≤ k)⟩] := by
  obtain ⟨c0, name', rfl⟩ : ∃ c0 name', name = c0 :: name' := by
    cases name with
    | nil => exact absurd rfl hn
    | cons a l => exact ⟨a, l, rfl⟩
  have hw0 : isWordChar c0 = true := hw c0 (List.mem_cons_self c0 name')
  have hd : (fun x => decide (x = '$')) c0 = false := by
    simp [word_ne_dollar hw0]
  rw [scan_run_some hk (takeWhile_cons_false _ hd) (dropWhile_cons_false _ hd)
      (tryRest_word hn hw), scan_nil]
  simp

/-- Scanning `k` dollars followed (only) by `{name}`: one braced match
without operator. -/
theorem scan_run_brace {k : Nat} {name : List Char} (hk : 1 ≤ k)
    (hn : name ≠ []) (hw : ∀ c ∈ name, isWordChar c = true) :
    scan (List.replicate k '$' ++ '{' :: (name ++ ['}'])) =
      [Seg.mtch ⟨List.replicate k '$' ++ '{' :: (name ++ ['}']), name, none,
                 decide (2 ≤ k)⟩] := by
  have hd : (fun x => decide (x = '$')) '{' = false := by decide
  have h3 : ∀ c ∈ (['}'] : List Char).head?, isWordChar c = false := by
    intro c hc
    simp only [List.head?] at hc
    simp only [Option.mem_def, Option.some.injEq] at hc
    subst hc
    decide
  rw [scan_run_some hk (takeWhile_cons_false _ hd) (dropWhile_cons_false _ hd)
      (tryRest_brace hn hw h3 (parseOpPart_plain [])), scan_nil]
  simp

/-- Scanning `k` dollars followed (only) by `{name<ks><fb>}` where `ks` is
a run of operator characters and `fb` starts with a non-operator character
and contains no `}`: one braced match with operator `(ks, fb)`. -/
theorem scan_run_braceOp {k : Nat} {name ks fb : List Char} (hk : 1 ≤ k)
    (hn : name ≠ []) (hw : ∀ c ∈ name, isWordChar c = true)
    (hks : ks ≠ []) (hop : ∀ c ∈ ks, isOpChar c = true) (hfb : fb ≠ [])
    (hf : ∀ c ∈ fb.head?, isOpChar c = false) (hnb : ∀ c ∈ fb, c ≠ '}') :
    scan (List.replicate k '$' ++ '{' :: (name ++ (ks ++ fb ++ ['}']))) =
      [Seg.mtch ⟨List.replicate k '$' ++ '{' :: (name ++ (ks ++ fb ++ ['}'])),
                 name, some ⟨ks, fb⟩, decide (2 ≤ k)⟩] := by
  have hd : (fun x => decide (x = '$')) '{' = false := by decide
  have h3 : ∀ c ∈ (ks ++ fb ++ ['}']).head?, isWordChar c = false := by
    obtain ⟨k0, ks', rfl⟩ : ∃ k0 ks', ks = k0 :: ks' := by
      cases ks with
      | nil => exact absurd rfl hks
      | cons a l => exact ⟨a, l, rfl⟩
    intro c hc
    simp only [List.cons_append, List.head?, Option.mem_def,
      Option.some.injEq] at hc
    subst hc
    exact op_not_word (hop k0 (List.mem_cons_self k0 ks'))
  rw [scan_run_some hk (takeWhile_cons_false _ hd) (dropWhile_cons_false _ hd)
      (tryRest_brace hn hw h3 (parseOpPart_op hks hop hfb hf hnb)), scan_nil]
  simp

/-- Scanning `k` dollars followed (only) by a braced form whose part after
the name parses (`parseOpPart`) with empty remainder: one braced match. -/
theorem scan_run_braceGen {k : Nat} {name r3 : List Char} {op : Option Operator}
    {consumed : List Char} (hk : 1 ≤ k) (hn : name ≠ [])
    (hw : ∀ c ∈ name, isWordChar c = true)
    (h3 : ∀ c ∈ r3.head?, isWordChar c = false)
    (hp : parseOpPart r3 = some (op, consumed, [])) :
    scan (List.replicate k '$' ++ '{' :: (name ++ r3)) =
      [Seg.mtch ⟨List.replicate k '$' ++ '{' :: (name ++ consumed), name, op,
                 decide (2 ≤ k)⟩] := by
  have hd : (fun x => decide (x = '$')) '{' = false := by decide
  rw [scan_run_some hk (takeWhile_cons_false _ hd) (dropWhile_cons_false _ hd)
      (tryRest_brace hn hw h3 hp), scan_nil]
  simp

/-- Scanning `k` dollars followed (only) by `{name<r3>` where `r3` does not
start with a word character and does not parse as an operator part: no
match at all, every character is literal. -/
theorem scan_run_brace_noparse {k : Nat} {name r3 : List Char} (hn : name ≠ [])
    (hw : ∀ c ∈ name, isWordChar c = true)
    (h3 : ∀ c ∈ r3.head?, isWordChar c = false)
    (hnd : ∀ c ∈ r3, c ≠ '$')
    (hp : parseOpPart r3 = none) :
    scan (List.replicate k '$' ++ '{' :: (name ++ r3)) =
      (List.replicate k '$' ++ '{' :: (name ++ r3)).map Seg.lit := by
  have hd : (fun x => decide (x = '$')) '{' = false := by decide
  have hlit : ∀ c ∈ '{' :: (name ++ r3), c ≠ '$' := by
    intro c hc
    rcases List.mem_cons.mp hc with hc | hc
    · subst hc; decide
    · rcases List.mem_append.mp hc with hc | hc
      · exact word_ne_dollar (hw c hc)
      · exact hnd c hc
  rw [scan_run_none (takeWhile_cons_false _ hd) (dropWhile_cons_false _ hd)
      (tryRest_brace_none hn hw h3 hp), scan_no_dollar hlit, List.map_append]

/-! ### Faithfulness: the scanner covers the input exactly -/

theorem flatten_scan_aux :
    ∀ (n : Nat) (cs : List Char), cs.length ≤ n →
      flattenSegs (scan cs) = cs := by
  intro n
  induction n with
  | zero =>
    intro cs h
    match cs with
    | [] => rw [scan_nil]; rfl
    | c :: rest => simp at h
  | succ n ih =>
    intro cs hlen
    match cs with
    | [] => rw [scan_nil]; rfl
    | c :: rest =>
      by_cases hc : c = '$'
      · subst hc
        cases h : tryRest (('$'::rest).takeWhile (fun x => x = '$'))
                          (('$'::rest).dropWhile (fun x => x = '$')) with
        | some p =>
          obtain ⟨m, rem⟩ := p
          rw [scan_cons_some h, flattenSegs]
          have hr : rem.length ≤ n := by
            have h1 := tryRest_length h
            have h2 := length_dropWhile_le (fun x => x = '$') ('$'::rest)
            simp only [List.length_cons] at hlen h2
            omega
          rw [ih rem hr, placeholder_tryRest h,
              List.takeWhile_append_dropWhile]
        | none =>
          rw [scan_cons_none h, flattenSegs,
              ih rest (by simp only [List.length_cons] at hlen; omega)]
      · rw [scan_cons_lit hc, flattenSegs,
            ih rest (by simp only [List.length_cons] at hlen; omega)]

/-- The scanned segments of a string spell out exactly that string: the
output outside matched spans is byte-identical to the input. -/
theorem flatten_scan (cs : List Char) : flattenSegs (scan cs) = cs :=
  flatten_scan_aux cs.length cs (Nat.le_refl _)

/-! ### runSegs facts -/

theorem runSegs_lits {env : Environment} {opts : InternalOptions}
    (cs : List Char) :
    runSegs env opts (cs.map Seg.lit) = ([], .ok cs) := by
  induction cs with
  | nil => rfl
  | cons c rest ih =>
    rw [List.map_cons, runSegs, ih]
    rfl

theorem runSegs_ok_verbatim {env : Environment} {opts : InternalOptions}
    {segs : List Seg}
    (h : ∀ m ∈ segMatches segs, processMatch env opts m = .ok m.placeholder) :
    (runSegs env opts segs).2 = .ok (flattenSegs segs) := by
  induction segs with
  | nil => rfl
  | cons s rest ih =>
    cases s with
    | lit c =>
      have ihh := ih (fun m hm => h m (by rw [segMatches]; exact hm))
      rw [runSegs, flattenSegs]
      show (runSegs env opts rest).2.map (c :: ·) = _
      rw [ihh]
      rfl
    | mtch m =>
      have hm := h m (by rw [segMatches]; exact List.mem_cons_self _ _)
      have ihh := ih (fun m' hm' => h m' (by
        rw [segMatches]; exact List.mem_cons_of_mem _ hm'))
      rw [runSegs, hm, flattenSegs]
      show (mkEvent env m :: (runSegs env opts rest).1,
            (runSegs env opts rest).2.map (m.placeholder ++ ·)).2 = _
      show (runSegs env opts rest).2.map (m.placeholder ++ ·) = _
      rw [ihh]
      rfl

/-! ### processMatch decisions -/

theorem processMatch_escaped_preserve {env : Environment}
    {opts : InternalOptions} {m : MatchData} (he : m.escaped = true)
    (hp : opts.preserveEscaped = true) :
    processMatch env opts m = .ok m.placeholder := by
  simp [processMatch, he, hp]

theorem processMatch_escaped_strip {env : Environment}
    {opts : InternalOptions} {m : MatchData} (he : m.escaped = true)
    (hp : opts.preserveEscaped = false) :
    processMatch env opts m = .ok m.placeholder.tail := by
  simp [processMatch, he, hp]

theorem processMatch_undefined_preserve {env : Environment}
    {opts : InternalOptions} {m : MatchData} (he : m.escaped = false)
    (hu : rawValue env m.name = none) (hp : opts.preserveUndefined = true) :
    processMatch env opts m = .ok m.placeholder := by
  simp [processMatch, he, hu, hp]

theorem processMatch_plain {env : Environment} {opts : InternalOptions}
    {ph name : List Char}
    (hcond : ((rawValue env name).isNone && opts.preserveUndefined) = false) :
    processMatch env opts ⟨ph, name, none, false⟩ =
      .ok (resolvedValue env name) := by
  simp [processMatch, hcond]

theorem processMatch_kind_dash {env : Environment} {opts : InternalOptions}
    {ph name fb : List Char} (hpu : opts.preserveUndefined = false) :
    processMatch env opts ⟨ph, name, some ⟨['-'], fb⟩, false⟩ =
      .ok (if (rawValue env name).isNone then fb
           else resolvedValue env name) := by
  by_cases hra : (rawValue env name).isNone <;> simp [processMatch, hpu, hra]

theorem processMatch_kind_q {env : Environment} {opts : InternalOptions}
    {ph name fb : List Char} (hpu : opts.preserveUndefined = false) :
    processMatch env opts ⟨ph, name, some ⟨['?'], fb⟩, false⟩ =
      (if (rawValue env name).isNone then .error (.valueError fb)
       else .ok (resolvedValue env name)) := by
  by_cases hra : (rawValue env name).isNone <;> simp [processMatch, hpu, hra]

theorem processMatch_kind_cdash {env : Environment} {opts : InternalOptions}
    {ph name fb : List Char} (hpu : opts.preserveUndefined = false) :
    processMatch env opts ⟨ph, name, some ⟨[':', '-'], fb⟩, false⟩ =
      .ok (if ((rawValue env name).isNone || (resolvedValue env name).isEmpty)
           then fb else resolvedValue env name) := by
  by_cases hra : ((rawValue env name).isNone
      || (resolvedValue env name).isEmpty) = true <;>
    simp [processMatch, hpu, hra]

theorem processMatch_kind_cq {env : Environment} {opts : InternalOptions}
    {ph name fb : List Char} (hpu : opts.preserveUndefined = false) :
    processMatch env opts ⟨ph, name, some ⟨[':', '?'], fb⟩, false⟩ =
      (if ((rawValue env name).isNone || (resolvedValue env name).isEmpty)
       then .error (.valueError fb)
       else .ok (resolvedValue env name)) := by
  by_cases hra : ((rawValue env name).isNone
      || (resolvedValue env name).isEmpty) = true <;>
    simp [processMatch, hpu, hra]

theorem processMatch_kind_unknown {env : Environment} {opts : InternalOptions}
    {ph name ks fb : List Char} (hpu : opts.preserveUndefined = false)
    (h1 : ks ≠ ['-']) (h2 : ks ≠ ['?']) (h3 : ks ≠ [':', '-'])
    (h4 : ks ≠ [':', '?']) :
    processMatch env opts ⟨ph, name, some ⟨ks, fb⟩, false⟩ =
      .error (.syntaxError (unknownOperatorMsg ks)) := by
  simp [processMatch, hpu, h1, h2, h3, h4]

/-- Processing a single match: `runSegs` returns its decision. -/
theorem runSegs_single {env : Environment} {opts : InternalOptions}
    (m : MatchData) :
    (runSegs env opts [Seg.mtch m]).2 = processMatch env opts m := by
  rw [runSegs]
  cases h : processMatch env opts m with
  | error e => rfl
  | ok out =>
    show ((runSegs env opts []).2.map (out ++ ·)) = .ok out
    rw [show (runSegs env opts []).2 = .ok [] from rfl]
    show Except.ok (out ++ []) = .ok out
    rw [List.append_nil]

/-- A single-match string substitutes to the decision of its match. -/
theorem interpolateString_single {str : List Char} {env : Environment}
    {opts : InternalOptions} {m : MatchData}
    (hscan : scan str = [Seg.mtch m]) :
    interpolateString str env opts = processMatch env opts m := by
  rw [interpolateString, hscan, runSegs_single]

/-- A string scanned as pure literals substitutes to itself. -/
theorem interpolateString_lits {str : List Char} {env : Environment}
    {opts : InternalOptions} (h : scan str = str.map Seg.lit) :
    interpolateString str env opts = .ok str := by
  rw [interpolateString, h, runSegs_lits]

theorem tail_replicate_append {k : Nat} (hk : 1 ≤ k) (l : List Char) :
    (List.replicate k '$' ++ l).tail = List.replicate (k - 1) '$' ++ l := by
  obtain ⟨k', rfl⟩ : ∃ k', k = k' + 1 := ⟨k - 1, by omega⟩
  rw [List.replicate_succ, List.cons_append, List.tail_cons]
  simp

/-! ### No-op interpolation under a disjoint environment -/

theorem processMatch_noop {env : Environment} {m : MatchData}
    (h : lookupEnv env m.name = none) :
    processMatch env ⟨true, true⟩ m = .ok m.placeholder := by
  have hraw : rawValue env m.name = none := by simp [rawValue, h]
  by_cases he : m.escaped
  · exact processMatch_escaped_preserve he rfl
  · exact processMatch_undefined_preserve (by simpa using he) hraw rfl

mutual

theorem interpolate0_noop (env : Environment) :
    ∀ (v : Value), (∀ n ∈ valueNames v, lookupEnv env n = none) →
      interpolate0 v env ⟨true, true⟩ = .ok v
  | .str s, h => by
    have hall : ∀ m ∈ segMatches (scan s),
        processMatch env ⟨true, true⟩ m = .ok m.placeholder := by
      intro m hm
      exact processMatch_noop (h m.name (by
        rw [valueNames]
        exact List.mem_map_of_mem _ hm))
    rw [interpolate0, interpolateString, runSegs_ok_verbatim hall, flatten_scan]
    rfl
  | .arr xs, h => by
    rw [interpolate0, interpolateArr_noop env xs (fun n hn => h n (by
      rw [valueNames]; exact hn))]
    rfl
  | .obj fs, h => by
    rw [interpolate0, interpolateObj_noop env fs (fun n hn => h n (by
      rw [valueNames]; exact hn))]
    rfl
  | .num n, _ => by rw [interpolate0]
  | .boolv b, _ => by rw [interpolate0]
  | .nullv, _ => by rw [interpolate0]

theorem interpolateArr_noop (env : Environment) :
    ∀ (xs : List Value), (∀ n ∈ arrNames xs, lookupEnv env n = none) →
      interpolateArr xs env ⟨true, true⟩ = .ok xs
  | [], _ => by rw [interpolateArr]
  | x :: xs, h => by
    rw [interpolateArr,
        interpolate0_noop env x (fun n hn => h n (by
          rw [arrNames]; exact List.mem_append_left _ hn)),
        interpolateArr_noop env xs (fun n hn => h n (by
          rw [arrNames]; exact List.mem_append_right _ hn))]

theorem interpolateObj_noop (env : Environment) :
    ∀ (fs : List (List Char × Value)),
      (∀ n ∈ objNames fs, lookupEnv env n = none) →
      interpolateObj fs env ⟨true, true⟩ = .ok fs
  | [], _ => by rw [interpolateObj]
  | (k, v) :: fs, h => by
    rw [interpolateObj,
        interpolate0_noop env v (fun n hn => h n (by
          rw [objNames]; exact List.mem_append_left _ hn)),
        interpolateObj_noop env fs (fun n hn => h n (by
          rw [objNames]; exact List.mem_append_right _ hn))]

end

/-! ### Structural shape preservation -/

theorem interpolateArr_ok {env : Environment} {opts : InternalOptions} :
    ∀ {xs ys : List Value}, interpolateArr xs env opts = .ok ys →
      ys.length = xs.length ∧
      ∀ (i : Nat) (x : Value), xs[i]? = some x →
        ∃ y, ys[i]? = some y ∧ interpolate0 x env opts = .ok y := by
  intro xs
  induction xs with
  | nil =>
    intro ys h
    rw [interpolateArr] at h
    simp only [Except.ok.injEq] at h
    subst h
    exact ⟨rfl, by intro i x hx; simp at hx⟩
  | cons x xs ih =>
    intro ys h
    rw [interpolateArr] at h
    cases h1 : interpolate0 x env opts with
    | error e => rw [h1] at h; simp at h
    | ok y =>
      rw [h1] at h
      cases h2 : interpolateArr xs env opts with
      | error e => rw [h2] at h; simp at h
      | ok ys' =>
        rw [h2] at h
        simp only [Except.ok.injEq] at h
        subst h
        obtain ⟨hlen, hpt⟩ := ih h2
        refine ⟨by simp [hlen], ?_⟩
        intro i x' hx
        match i with
        | 0 =>
          simp only [List.getElem?_cons_zero, Option.some.injEq] at hx
          subst hx
          exact ⟨y, by simp, h1⟩
        | i + 1 =>
          simp only [List.getElem?_cons_succ] at hx ⊢
          exact hpt i x' hx

theorem interpolateObj_ok {env : Environment} {opts : InternalOptions} :
    ∀ {fs gs : List (List Char × Value)},
      interpolateObj fs env opts = .ok gs →
      gs.map Prod.fst = fs.map Prod.fst ∧
      ∀ (i : Nat) (k : List Char) (v : Value), fs[i]? = some (k, v) →
        ∃ w, gs[i]? = some (k, w) ∧ interpolate0 v env opts = .ok w := by
  intro fs
  induction fs with
  | nil =>
    intro gs h
    rw [interpolateObj] at h
    simp only [Except.ok.injEq] at h
    subst h
    exact ⟨rfl, by intro i k v hx; simp at hx⟩
  | cons f fs ih =>
    obtain ⟨k0, v0⟩ := f
    intro gs h
    rw [interpolateObj] at h
    cases h1 : interpolate0 v0 env opts with
    | error e => rw [h1] at h; simp at h
    | ok w =>
      rw [h1] at h
      cases h2 : interpolateObj fs env opts with
      | error e => rw [h2] at h; simp at h
      | ok gs' =>
        rw [h2] at h
        simp only [Except.ok.injEq] at h
        subst h
        obtain ⟨hkeys, hpt⟩ := ih h2
        refine ⟨by simp [hkeys], ?_⟩
        intro i k v hx
        match i with
        | 0 =>
          simp only [List.getElem?_cons_zero, Option.some.injEq,
            Prod.mk.injEq] at hx
          obtain ⟨rfl, rfl⟩ := hx
          exact ⟨w, by simp, h1⟩
        | i + 1 =>
          simp only [List.getElem?_cons_succ] at hx ⊢
          exact hpt i k v hx

/-! ### Error position and the observation trace -/

theorem runSegs_error {env : Environment} {opts : InternalOptions} :
    ∀ {segs : List Seg} {e : SubError},
      (runSegs env opts segs).2 = .error e →
      ∃ k m, (segMatches segs)[k]? = some m ∧
        processMatch env opts m = .error e ∧
        (∀ i, i < k → ∃ m' out, (segMatches segs)[i]? = some m' ∧
          processMatch env opts m' = .ok out) ∧
        (runSegs env opts segs).1 =
          ((segMatches segs).take (k + 1)).map (mkEvent env) := by
  intro segs
  induction segs with
  | nil =>
    intro e h
    simp [runSegs] at h
  | cons s rest ih =>
    intro e h
    cases s with
    | lit c =>
      rw [runSegs] at h
      have h' : (runSegs env opts rest).2 = .error e := by
        revert h
        cases (runSegs env opts rest).2 with
        | error e' => intro h; simpa [Except.map] using h
        | ok out => intro h; simp [Except.map] at h
      obtain ⟨k, m, hk, he, hlt, htr⟩ := ih h'
      refine ⟨k, m, ?_, he, ?_, ?_⟩
      · rw [segMatches]; exact hk
      · intro i hi
        rw [segMatches]
        exact hlt i hi
      · rw [runSegs, segMatches]
        exact htr
    | mtch m =>
      rw [runSegs] at h
      cases hp : processMatch env opts m with
      | error e' =>
        rw [hp] at h
        simp only at h
        have : e' = e := by simpa using h
        subst this
        refine ⟨0, m, by rw [segMatches]; simp, hp, by omega, ?_⟩
        rw [runSegs, hp, segMatches]
        simp
      | ok out =>
        rw [hp] at h
        simp only at h
        have h' : (runSegs env opts rest).2 = .error e := by
          revert h
          cases (runSegs env opts rest).2 with
          | error e' => intro h; simpa [Except.map] using h
          | ok o => intro h; simp [Except.map] at h
        obtain ⟨k, m', hk, he, hlt, htr⟩ := ih h'
        refine ⟨k + 1, m', ?_, he, ?_, ?_⟩
        · rw [segMatches]
          simpa using hk
        · intro i hi
          match i with
          | 0 =>
            rw [segMatches]
            exact ⟨m, out, by simp, hp⟩
          | i + 1 =>
            rw [segMatches]
            have := hlt i (by omega)
            simpa using this
        · rw [runSegs, hp, segMatches]
          simp only [List.take_succ_cons, List.map_cons]
          rw [htr]

theorem head?_cons_all {P : Char → Prop} {x : Char} (l : List Char)
    (h : P x) : ∀ c ∈ (x :: l).head?, P c := by
  intro c hc
  have hx : x = c := by simpa using hc
  subst hx
  exact h

/-! ## The claims -/

/-- C1 counterexample: the braced form `${NAME-}` declares the operator
token `-` with no fallback text before the closing brace, yet substitution
succeeds and returns the input unchanged — the regex never matches such a
form, so no SyntaxError is raised, contradicting the claim. -/
theorem claim_C1_counterexample :
    interpolateString "${NAME-}".data [] defaultOptions =
      .ok "${NAME-}".data := by decide

/-- C1 (amended): a braced form declaring a single-character operator token
(`-` or `?`) with no fallback text is not recognized as a placeholder at
all and is returned literally, for every environment and options; a braced
form declaring a two-character token (`:-` or `:?`) with no fallback text
instead re-parses as operator `:` with the remaining character as the
fallback and, under the default options, fails with the unknown-operator
SyntaxError (not the fallback-not-specified one). -/
theorem claim_C1 (env : Environment) (opts : InternalOptions)
    (name : List Char) (hn : name ≠ [])
    (hw : ∀ c ∈ name, isWordChar c = true) :
    (interpolateString ('$' :: '{' :: (name ++ ['-', '}'])) env opts =
       .ok ('$' :: '{' :: (name ++ ['-', '}'])))
  ∧ (interpolateString ('$' :: '{' :: (name ++ ['?', '}'])) env opts =
       .ok ('$' :: '{' :: (name ++ ['?', '}'])))
  ∧ (interpolateString ('$' :: '{' :: (name ++ [':', '-', '}'])) env
       defaultOptions = .error (.syntaxError (unknownOperatorMsg [':'])))
  ∧ (interpolateString ('$' :: '{' :: (name ++ [':', '?', '}'])) env
       defaultOptions = .error (.syntaxError (unknownOperatorMsg [':']))) := by
  refine ⟨?_, ?_, ?_, ?_⟩
  · have hs : scan ('$' :: '{' :: (name ++ ['-', '}'])) =
        ('$' :: '{' :: (name ++ ['-', '}'])).map Seg.lit :=
      scan_run_brace_noparse (k := 1) hn hw
        (head?_cons_all _ (by decide)) (by decide) (by decide)
    exact interpolateString_lits hs
  · have hs : scan ('$' :: '{' :: (name ++ ['?', '}'])) =
        ('$' :: '{' :: (name ++ ['?', '}'])).map Seg.lit :=
      scan_run_brace_noparse (k := 1) hn hw
        (head?_cons_all _ (by decide)) (by decide) (by decide)
    exact interpolateString_lits hs
  · have hs : scan ('$' :: '{' :: (name ++ [':', '-', '}'])) =
        [Seg.mtch ⟨'$' :: '{' :: (name ++ [':', '-', '}']), name,
                   some ⟨[':'], ['-']⟩, false⟩] :=
      scan_run_braceGen (k := 1) (by omega) hn hw
        (head?_cons_all _ (by decide)) (by decide)
    rw [interpolateString_single hs]
    exact processMatch_kind_unknown rfl (by decide) (by decide) (by decide)
      (by decide)
  · have hs : scan ('$' :: '{' :: (name ++ [':', '?', '}'])) =
        [Seg.mtch ⟨'$' :: '{' :: (name ++ [':', '?', '}']), name,
                   some ⟨[':'], ['?']⟩, false⟩] :=
      scan_run_braceGen (k := 1) (by omega) hn hw
        (head?_cons_all _ (by decide)) (by decide)
    rw [interpolateString_single hs]
    exact processMatch_kind_unknown rfl (by decide) (by decide) (by decide)
      (by decide)

/-- C1 witness: the amended claim at `NAME` and a singleton environment. -/
theorem claim_C1_witness :
    ("NAME".data ≠ ([] : List Char))
  ∧ ((interpolateString "${NAME-}".data [("NAME".data, JsVal.str "v".data)]
        ⟨false, false⟩ = .ok "${NAME-}".data)
   ∧ (interpolateString "${NAME?}".data [("NAME".data, JsVal.str "v".data)]
        ⟨false, false⟩ = .ok "${NAME?}".data)
   ∧ (interpolateString "${NAME:-}".data [("NAME".data, JsVal.str "v".data)]
        defaultOptions = .error (.syntaxError (unknownOperatorMsg [':'])))
   ∧ (interpolateString "${NAME:?}".data [("NAME".data, JsVal.str "v".data)]
        defaultOptions = .error (.syntaxError (unknownOperatorMsg [':'])))) :=
  ⟨by decide, claim_C1 [("NAME".data, JsVal.str "v".data)] ⟨false, false⟩
    "NAME".data (by decide) (by decide)⟩

/-- C2 counterexample: in `${VAR-:x}` with `VAR` defined, the claim says
the operator is `-` with fallback `:x` and the resolved value is emitted;
the code instead takes the maximal operator-character run `-:` as the kind
and fails with the unknown-operator SyntaxError. -/
theorem claim_C2_counterexample :
    interpolateString "${VAR-:x}".data [("VAR".data, JsVal.str "value".data)]
      defaultOptions =
      .error (.syntaxError (unknownOperatorMsg ['-', ':'])) := by decide

/-- C2 (amended): the operator token of a braced placeholder is the maximal
run of `:`/`-`/`?` characters after the name (shortened only as far as
needed to leave a nonempty fallback before the closing brace), and the
fallback is the text from the end of that run to the first `}`.  When that
token is not one of the four recognized kinds, substitution under the
default options fails with the unknown-operator SyntaxError instead of
applying any operator rule. -/
theorem claim_C2 (env : Environment) (name ks fb : List Char)
    (hn : name ≠ []) (hw : ∀ c ∈ name, isWordChar c = true)
    (hks : ks ≠ []) (hop : ∀ c ∈ ks, isOpChar c = true) (hfb : fb ≠ [])
    (hf : ∀ c ∈ fb.head?, isOpChar c = false) (hnb : ∀ c ∈ fb, c ≠ '}')
    (h1 : ks ≠ ['-']) (h2 : ks ≠ ['?']) (h3 : ks ≠ [':', '-'])
    (h4 : ks ≠ [':', '?']) :
    (scan ('$' :: '{' :: (name ++ (ks ++ fb ++ ['}']))) =
       [Seg.mtch ⟨'$' :: '{' :: (name ++ (ks ++ fb ++ ['}'])), name,
                  some ⟨ks, fb⟩, false⟩])
  ∧ (interpolateString ('$' :: '{' :: (name ++ (ks ++ fb ++ ['}']))) env
       defaultOptions = .error (.syntaxError (unknownOperatorMsg ks))) := by
  have hs : scan ('$' :: '{' :: (name ++ (ks ++ fb ++ ['}']))) =
      [Seg.mtch ⟨'$' :: '{' :: (name ++ (ks ++ fb ++ ['}'])), name,
                 some ⟨ks, fb⟩, false⟩] :=
    scan_run_braceOp (k := 1) (by omega) hn hw hks hop hfb hf hnb
  refine ⟨hs, ?_⟩
  rw [interpolateString_single hs]
  exact processMatch_kind_unknown rfl h1 h2 h3 h4

/-- C2 witness: the amended claim at `${VAR-:x}` (kind `-:`, fallback `x`),
with `VAR` defined. -/
theorem claim_C2_witness :
    ((['-', ':'] : List Char) ≠ ['-'])
  ∧ ((scan "${VAR-:x}".data =
       [Seg.mtch ⟨"${VAR-:x}".data, "VAR".data,
                  some ⟨['-', ':'], ['x']⟩, false⟩])
   ∧ (interpolateString "${VAR-:x}".data
       [("VAR".data, JsVal.str "value".data)] defaultOptions =
       .error (.syntaxError (unknownOperatorMsg ['-', ':'])))) :=
  ⟨by decide, claim_C2 [("VAR".data, JsVal.str "value".data)] "VAR".data
    ['-', ':'] ['x'] (by decide) (by decide) (by decide) (by decide)
    (by decide) (by decide) (by decide) (by decide) (by decide) (by decide)
    (by decide)⟩

/-- C3 counterexample: at k = 1 the placeholder `$A` is not escaped, so
even with preserveEscaped=true it is substituted to the resolved value
"x" instead of being returned byte-identical as the claim demands for
every k ≥ 1. -/
theorem claim_C3_counterexample :
    (interpolateString "$A".data [("A".data, JsVal.str "x".data)]
       ⟨true, false⟩ = .ok "x".data)
  ∧ "x".data ≠ "$A".data :=
  ⟨by decide, by decide⟩

/-- C3 (amended): for every k ≥ 2, a string of k `$` followed by a name (or
a `{name}` brace form) is an escaped match: with preserveEscaped=false the
output is the matched text minus its first `$` — k-1 leading `$` and the
name/brace emitted literally — and with preserveEscaped=true the input is
returned byte-identical.  (At k = 1 the match is not escaped and is
substituted per the normal rules regardless of preserveEscaped.) -/
theorem claim_C3 (env : Environment) (b : Bool) (k : Nat) (name : List Char)
    (hk : 2 ≤ k) (hn : name ≠ [])
    (hw : ∀ c ∈ name, isWordChar c = true) :
    (interpolateString (List.replicate k '$' ++ name) env ⟨false, b⟩ =
       .ok (List.replicate (k - 1) '$' ++ name))
  ∧ (interpolateString (List.replicate k '$' ++ name) env ⟨true, b⟩ =
       .ok (List.replicate k '$' ++ name))
  ∧ (interpolateString (List.replicate k '$' ++ '{' :: (name ++ ['}'])) env
       ⟨false, b⟩ =
       .ok (List.replicate (k - 1) '$' ++ '{' :: (name ++ ['}'])))
  ∧ (interpolateString (List.replicate k '$' ++ '{' :: (name ++ ['}'])) env
       ⟨true, b⟩ =
       .ok (List.replicate k '$' ++ '{' :: (name ++ ['}']))) := by
  have h1 : 1 ≤ k := by omega
  have hesc : decide (2 ≤ k) = true := by simpa using hk
  have hsn := scan_run_name h1 hn hw
  have hsb := scan_run_brace h1 hn hw
  refine ⟨?_, ?_, ?_, ?_⟩
  · rw [interpolateString_single hsn,
        ← tail_replicate_append h1 name]
    exact processMatch_escaped_strip hesc rfl
  · rw [interpolateString_single hsn]
    exact processMatch_escaped_preserve hesc rfl
  · rw [interpolateString_single hsb,
        ← tail_replicate_append h1 ('{' :: (name ++ ['}']))]
    exact processMatch_escaped_strip hesc rfl
  · rw [interpolateString_single hsb]
    exact processMatch_escaped_preserve hesc rfl

/-- C3 witness: the amended claim at k = 2 and name `VAR`. -/
theorem claim_C3_witness :
    2 ≤ 2
  ∧ ((interpolateString "$$VAR".data [] ⟨false, false⟩ = .ok "$VAR".data)
   ∧ (interpolateString "$$VAR".data [] ⟨true, false⟩ = .ok "$$VAR".data)
   ∧ (interpolateString "$${VAR}".data [] ⟨false, false⟩ =
        .ok "${VAR}".data)
   ∧ (interpolateString "$${VAR}".data [] ⟨true, false⟩ =
        .ok "$${VAR}".data)) :=
  ⟨by decide, claim_C3 [] false 2 "VAR".data (by decide) (by decide)
    (by decide)⟩

/-- C4 (confirmed): for a non-escaped (single `$`), non-preserved braced
placeholder, operator `?` fails with a ValueError exactly when the name is
undefined, operator `:?` exactly when it is undefined or resolves to the
empty string; in both cases the error carries exactly the declared
fallback text as its message, and otherwise the resolved value is
emitted. -/
theorem claim_C4 (env : Environment) (opts : InternalOptions)
    (name fb : List Char) (hn : name ≠ [])
    (hw : ∀ c ∈ name, isWordChar c = true) (hfb : fb ≠ [])
    (hf : ∀ c ∈ fb.head?, isOpChar c = false) (hnb : ∀ c ∈ fb, c ≠ '}')
    (hpu : opts.preserveUndefined = false) :
    (interpolateString ('$' :: '{' :: (name ++ (['?'] ++ fb ++ ['}'])))
       env opts =
       if (rawValue env name).isNone then .error (.valueError fb)
       else .ok (resolvedValue env name))
  ∧ (interpolateString ('$' :: '{' :: (name ++ ([':', '?'] ++ fb ++ ['}'])))
       env opts =
       if ((rawValue env name).isNone || (resolvedValue env name).isEmpty)
       then .error (.valueError fb)
       else .ok (resolvedValue env name)) := by
  constructor
  · have hs : scan ('$' :: '{' :: (name ++ (['?'] ++ fb ++ ['}']))) =
        [Seg.mtch ⟨'$' :: '{' :: (name ++ (['?'] ++ fb ++ ['}'])), name,
                   some ⟨['?'], fb⟩, false⟩] :=
      scan_run_braceOp (k := 1) (by omega) hn hw (by decide) (by decide)
        hfb hf hnb
    rw [interpolateString_single hs]
    exact processMatch_kind_q hpu
  · have hs : scan ('$' :: '{' :: (name ++ ([':', '?'] ++ fb ++ ['}']))) =
        [Seg.mtch ⟨'$' :: '{' :: (name ++ ([':', '?'] ++ fb ++ ['}'])),
                   name, some ⟨[':', '?'], fb⟩, false⟩] :=
      scan_run_braceOp (k := 1) (by omega) hn hw (by decide) (by decide)
        hfb hf hnb
    rw [interpolateString_single hs]
    exact processMatch_kind_cq hpu

/-- C4 witness: `${UNSET:?err}` and `${UNSET?err}` against an environment
not defining `UNSET`. -/
theorem claim_C4_witness :
    ("UNSET".data ≠ ([] : List Char))
  ∧ ((interpolateString "${UNSET?err}".data
        [("VAR".data, JsVal.str "value".data)] defaultOptions =
        if (rawValue [("VAR".data, JsVal.str "value".data)]
              "UNSET".data).isNone
        then .error (.valueError "err".data)
        else .ok (resolvedValue [("VAR".data, JsVal.str "value".data)]
              "UNSET".data))
   ∧ (interpolateString "${UNSET:?err}".data
        [("VAR".data, JsVal.str "value".data)] defaultOptions =
        if ((rawValue [("VAR".data, JsVal.str "value".data)]
               "UNSET".data).isNone
            || (resolvedValue [("VAR".data, JsVal.str "value".data)]
                  "UNSET".data).isEmpty)
        then .error (.valueError "err".data)
        else .ok (resolvedValue [("VAR".data, JsVal.str "value".data)]
              "UNSET".data))) :=
  ⟨by decide, claim_C4 [("VAR".data, JsVal.str "value".data)]
    defaultOptions "UNSET".data "err".data (by decide) (by decide)
    (by decide) (by decide) (by decide) rfl⟩

/-- C5 (confirmed): for a non-escaped, non-preserved braced placeholder,
operator `-` emits the fallback iff the name is undefined and otherwise the
resolved value (even when empty), and operator `:-` emits the fallback iff
the name is undefined or resolves to the empty string. -/
theorem claim_C5 (env : Environment) (opts : InternalOptions)
    (name fb : List Char) (hn : name ≠ [])
    (hw : ∀ c ∈ name, isWordChar c = true) (hfb : fb ≠ [])
    (hf : ∀ c ∈ fb.head?, isOpChar c = false) (hnb : ∀ c ∈ fb, c ≠ '}')
    (hpu : opts.preserveUndefined = false) :
    (interpolateString ('$' :: '{' :: (name ++ (['-'] ++ fb ++ ['}'])))
       env opts =
       .ok (if (rawValue env name).isNone then fb
            else resolvedValue env name))
  ∧ (interpolateString ('$' :: '{' :: (name ++ ([':', '-'] ++ fb ++ ['}'])))
       env opts =
       .ok (if ((rawValue env name).isNone
                || (resolvedValue env name).isEmpty)
            then fb else resolvedValue env name)) := by
  constructor
  · have hs : scan ('$' :: '{' :: (name ++ (['-'] ++ fb ++ ['}']))) =
        [Seg.mtch ⟨'$' :: '{' :: (name ++ (['-'] ++ fb ++ ['}'])), name,
                   some ⟨['-'], fb⟩, false⟩] :=
      scan_run_braceOp (k := 1) (by omega) hn hw (by decide) (by decide)
        hfb hf hnb
    rw [interpolateString_single hs]
    exact processMatch_kind_dash hpu
  · have hs : scan ('$' :: '{' :: (name ++ ([':', '-'] ++ fb ++ ['}']))) =
        [Seg.mtch ⟨'$' :: '{' :: (name ++ ([':', '-'] ++ fb ++ ['}'])),
                   name, some ⟨[':', '-'], fb⟩, false⟩] :=
      scan_run_braceOp (k := 1) (by omega) hn hw (by decide) (by decide)
        hfb hf hnb
    rw [interpolateString_single hs]
    exact processMatch_kind_cdash hpu

/-- C5 witness: `${EMPTY-default}` emits the empty resolved value while
`${EMPTY:-default}` emits the fallback, with `EMPTY` bound to `""`. -/
theorem claim_C5_witness :
    ("EMPTY".data ≠ ([] : List Char))
  ∧ ((interpolateString "${EMPTY-default}".data
        [("EMPTY".data, JsVal.str [])] defaultOptions =
        .ok (if (rawValue [("EMPTY".data, JsVal.str [])]
                   "EMPTY".data).isNone
             then "default".data
             else resolvedValue [("EMPTY".data, JsVal.str [])]
                    "EMPTY".data))
   ∧ (interpolateString "${EMPTY:-default}".data
        [("EMPTY".data, JsVal.str [])] defaultOptions =
        .ok (if ((rawValue [("EMPTY".data, JsVal.str [])]
                    "EMPTY".data).isNone
                 || (resolvedValue [("EMPTY".data, JsVal.str [])]
                       "EMPTY".data).isEmpty)
             then "default".data
             else resolvedValue [("EMPTY".data, JsVal.str [])]
                    "EMPTY".data))) :=
  ⟨by decide, claim_C5 [("EMPTY".data, JsVal.str [])] defaultOptions
    "EMPTY".data "default".data (by decide) (by decide) (by decide)
    (by decide) (by decide) rfl⟩

/-- C6 (confirmed): a non-escaped match whose name is undefined is, when
preserveUndefined is set, emitted as the full matched text verbatim —
operator and fallback included — and no error is raised regardless of the
operator, because the preserve branch precedes the operator dispatch. -/
theorem claim_C6 (env : Environment) (opts : InternalOptions)
    (m : MatchData) (he : m.escaped = false)
    (hu : rawValue env m.name = none) (hp : opts.preserveUndefined = true) :
    processMatch env opts m = .ok m.placeholder :=
  processMatch_undefined_preserve he hu hp

/-- C6 witness: an unrecognized two-character operator `??` on an undefined
name, preserved verbatim without error. -/
theorem claim_C6_witness :
    (rawValue [] "X".data = none)
  ∧ processMatch [] ⟨false, true⟩
      ⟨"${X??y}".data, "X".data, some ⟨['?', '?'], ['y']⟩, false⟩ =
      .ok "${X??y}".data :=
  ⟨by decide, claim_C6 [] ⟨false, true⟩
    ⟨"${X??y}".data, "X".data, some ⟨['?', '?'], ['y']⟩, false⟩
    rfl (by decide) rfl⟩

/-- C7 (confirmed): interpolating a value tree against an environment
defining none of the names referenced by its placeholders, with both
preserveUndefined and preserveEscaped set, returns the original value
unchanged. -/
theorem claim_C7 (env : Environment) (v : Value)
    (h : ∀ n ∈ valueNames v, lookupEnv env n = none) :
    interpolate v env ⟨true, true⟩ = .ok v :=
  interpolate0_noop env v h

/-- C7 witness: a nested tree with simple, operator, braced and escaped
placeholders against a disjoint environment. -/
theorem claim_C7_witness :
    (∀ n ∈ valueNames (Value.arr
        [Value.str "$A ${B:-x} $$C".data,
         Value.obj [("k".data, Value.str "${D}".data)], Value.num 7]),
      lookupEnv [("E".data, JsVal.str "e".data)] n = none)
  ∧ interpolate (Value.arr
        [Value.str "$A ${B:-x} $$C".data,
         Value.obj [("k".data, Value.str "${D}".data)], Value.num 7])
      [("E".data, JsVal.str "e".data)] ⟨true, true⟩ =
      .ok (Value.arr
        [Value.str "$A ${B:-x} $$C".data,
         Value.obj [("k".data, Value.str "${D}".data)], Value.num 7]) :=
  ⟨by decide, claim_C7 [("E".data, JsVal.str "e".data)] _ (by decide)⟩

/-- C8 (confirmed): a successful interpolation preserves structure — an
array maps to an array of the same length with the elements transformed in
order, a plain object maps to an object with the identical key list (keys
never substituted) and values transformed in order, and numbers, booleans
and null are returned identically. -/
theorem claim_C8 (env : Environment) (opts : InternalOptions)
    (v w : Value) (h : interpolate v env opts = .ok w) :
    (∀ xs, v = .arr xs → ∃ ys, w = .arr ys ∧ ys.length = xs.length ∧
       ∀ (i : Nat) (x : Value), xs[i]? = some x →
         ∃ y, ys[i]? = some y ∧ interpolate0 x env opts = .ok y)
  ∧ (∀ fs, v = .obj fs → ∃ gs, w = .obj gs ∧
       gs.map Prod.fst = fs.map Prod.fst ∧
       ∀ (i : Nat) (k : List Char) (u : Value), fs[i]? = some (k, u) →
         ∃ u', gs[i]? = some (k, u') ∧ interpolate0 u env opts = .ok u')
  ∧ (∀ n : Int, v = .num n → w = .num n)
  ∧ (∀ b : Bool, v = .boolv b → w = .boolv b)
  ∧ (v = .nullv → w = .nullv) := by
  have h0 : interpolate0 v env opts = .ok w := h
  refine ⟨?_, ?_, ?_, ?_, ?_⟩
  · intro xs hv
    subst hv
    rw [interpolate0] at h0
    cases ha : interpolateArr xs env opts with
    | error e => rw [ha] at h0; simp [Except.map] at h0
    | ok ys =>
      rw [ha] at h0
      simp only [Except.map, Except.ok.injEq] at h0
      obtain ⟨hlen, hpt⟩ := interpolateArr_ok ha
      exact ⟨ys, h0.symm, hlen, hpt⟩
  · intro fs hv
    subst hv
    rw [interpolate0] at h0
    cases ha : interpolateObj fs env opts with
    | error e => rw [ha] at h0; simp [Except.map] at h0
    | ok gs =>
      rw [ha] at h0
      simp only [Except.map, Except.ok.injEq] at h0
      obtain ⟨hkeys, hpt⟩ := interpolateObj_ok ha
      exact ⟨gs, h0.symm, hkeys, hpt⟩
  · intro n hv
    subst hv
    rw [interpolate0] at h0
    exact (Except.ok.inj h0).symm
  · intro b hv
    subst hv
    rw [interpolate0] at h0
    exact (Except.ok.inj h0).symm
  · intro hv
    subst hv
    rw [interpolate0] at h0
    exact (Except.ok.inj h0).symm

/-- C8 witness: a two-element array with one string leaf, transformed
in place. -/
theorem claim_C8_witness :
    (interpolate (Value.arr [Value.str "$V".data, Value.num 3])
       [("V".data, JsVal.str "x".data)] defaultOptions =
       .ok (Value.arr [Value.str "x".data, Value.num 3]))
  ∧ (∀ xs, Value.arr [Value.str "$V".data, Value.num 3] = .arr xs →
      ∃ ys, Value.arr [Value.str "x".data, Value.num 3] = .arr ys ∧
        ys.length = xs.length ∧
        ∀ (i : Nat) (x : Value), xs[i]? = some x →
          ∃ y, ys[i]? = some y ∧
            interpolate0 x [("V".data, JsVal.str "x".data)] defaultOptions =
              .ok y) :=
  ⟨rfl, (claim_C8 [("V".data, JsVal.str "x".data)] defaultOptions
    (Value.arr [Value.str "$V".data, Value.num 3])
    (Value.arr [Value.str "x".data, Value.num 3]) rfl).1⟩

/-- C9 counterexample: for the environment entry `ZERO ↦ 0`, a placeholder
resolving `ZERO` emits the empty string, not the string form "0" claimed:
the code coerces through `(rawValue || '')`, which discards falsy non-null
values such as the number 0. -/
theorem claim_C9_counterexample :
    (interpolateString "$ZERO".data [("ZERO".data, JsVal.num 0)]
       defaultOptions = .ok [])
  ∧ jsToString (JsVal.num 0) = "0".data :=
  ⟨by decide, by decide⟩

/-- C9 (amended): an environment entry holding a non-null, non-undefined
value v is treated as defined (so a `-` default is not taken), but the
emitted text is the string form of v only when v is truthy; falsy values
(the number 0, the empty string) emit the empty string. -/
theorem claim_C9 (env : Environment) (name : List Char) (v : JsVal)
    (hn : name ≠ []) (hw : ∀ c ∈ name, isWordChar c = true)
    (hv : lookupEnv env name = some v) (h1 : v ≠ .nullv)
    (h2 : v ≠ .undef) :
    rawValue env name = some v
  ∧ interpolateString ('$' :: name) env defaultOptions =
      .ok (if jsTruthy v then jsToString v else [])
  ∧ interpolateString
      ('$' :: '{' :: (name ++ (['-'] ++ ['f', 'b'] ++ ['}']))) env
      defaultOptions = .ok (if jsTruthy v then jsToString v else []) := by
  have hraw : rawValue env name = some v := by
    rw [rawValue, hv]
    cases v with
    | nullv => exact absurd rfl h1
    | undef => exact absurd rfl h2
    | str s => rfl
    | num n => rfl
  have hres : resolvedValue env name =
      (if jsTruthy v then jsToString v else []) := by
    rw [resolvedValue, hraw]
  refine ⟨hraw, ?_, ?_⟩
  · have hs : scan ('$' :: name) =
        [Seg.mtch ⟨'$' :: name, name, none, false⟩] :=
      scan_run_name (k := 1) (by omega) hn hw
    rw [interpolateString_single hs,
        processMatch_plain (by rw [hraw]; rfl), hres]
  · have hs : scan ('$' :: '{' :: (name ++ (['-'] ++ ['f', 'b'] ++ ['}']))) =
        [Seg.mtch ⟨'$' :: '{' :: (name ++ (['-'] ++ ['f', 'b'] ++ ['}'])),
                   name, some ⟨['-'], ['f', 'b']⟩, false⟩] :=
      scan_run_braceOp (k := 1) (by omega) hn hw (by decide) (by decide)
        (by decide) (by decide) (by decide)
    rw [interpolateString_single hs, processMatch_kind_dash rfl, hraw, hres]
    simp

/-- C9 witness: the amended claim at `N ↦ 5` (truthy: emits "5"). -/
theorem claim_C9_witness :
    (lookupEnv [("N".data, JsVal.num 5)] "N".data = some (JsVal.num 5))
  ∧ (rawValue [("N".data, JsVal.num 5)] "N".data = some (JsVal.num 5)
   ∧ interpolateString "$N".data [("N".data, JsVal.num 5)] defaultOptions =
       .ok (if jsTruthy (JsVal.num 5) then jsToString (JsVal.num 5) else [])
   ∧ interpolateString "${N-fb}".data [("N".data, JsVal.num 5)]
       defaultOptions =
       .ok (if jsTruthy (JsVal.num 5) then jsToString (JsVal.num 5)
            else [])) :=
  ⟨by decide, claim_C9 [("N".data, JsVal.num 5)] "N".data (JsVal.num 5)
    (by decide) (by decide) (by decide) (by decide) (by decide)⟩

/-- C10 (confirmed): when substitution of a string fails, there is a match
index k such that the k-th recognized match fails, every earlier match
succeeded, and the observation-callback trace consists of exactly the
first k+1 match records (the failing match included), in left-to-right
order. -/
theorem claim_C10 (env : Environment) (opts : InternalOptions)
    (str : List Char) (e : SubError)
    (h : interpolateString str env opts = .error e) :
    ∃ k m, (segMatches (scan str))[k]? = some m ∧
      processMatch env opts m = .error e ∧
      (∀ i, i < k → ∃ m' out, (segMatches (scan str))[i]? = some m' ∧
        processMatch env opts m' = .ok out) ∧
      interpolateStringTrace str env opts =
        ((segMatches (scan str)).take (k + 1)).map (mkEvent env) :=
  runSegs_error h

/-- C10 witness: `$A ${B:?m}$C` with only `A` defined fails at the second
match; the trace contains exactly the records for `$A` and `${B:?m}`. -/
theorem claim_C10_witness :
    (interpolateString "$A ${B:?m}$C".data [("A".data, JsVal.str "a".data)]
       defaultOptions = .error (.valueError ['m']))
  ∧ (∃ k m,
      (segMatches (scan "$A ${B:?m}$C".data))[k]? = some m ∧
      processMatch [("A".data, JsVal.str "a".data)] defaultOptions m =
        .error (.valueError ['m']) ∧
      (∀ i, i < k → ∃ m' out,
        (segMatches (scan "$A ${B:?m}$C".data))[i]? = some m' ∧
        processMatch [("A".data, JsVal.str "a".data)] defaultOptions m' =
          .ok out) ∧
      interpolateStringTrace "$A ${B:?m}$C".data
          [("A".data, JsVal.str "a".data)] defaultOptions =
        ((segMatches (scan "$A ${B:?m}$C".data)).take (k + 1)).map
          (mkEvent [("A".data, JsVal.str "a".data)])) :=
  ⟨by decide, claim_C10 [("A".data, JsVal.str "a".data)] defaultOptions
    "$A ${B:?m}$C".data (.valueError ['m']) (by decide)⟩

end VarSub
